import Mathlib

/-!
Verification of the sample-ingestion engine of mesh-map.

The merge-and-retry engine lives in `src/functions/put-sample.js`; the
helpers it imports (`parseLocation`, `ageInDays`, `sampleKey`, `retry`)
live in `src/content/shared.js`, a file that is not present in the
repository snapshot, so those four are modelled from the spec (each such
definition is marked `Modelled from the spec:`). Everything else is a
direct shallow embedding of `put-sample.js`.

JavaScript strings are modelled as lists of UTF-16 code units
(`List Nat`); `String.prototype.toLowerCase` is modelled on the ASCII
range (the only range exercised by edge identifiers such as "7e").
-/

namespace MeshMap

/-- A JavaScript string, as its sequence of UTF-16 code units. -/
abbrev JSStr := List Nat

/-- ASCII lowering of one code unit, the effect of `toLowerCase` on the
ASCII range: `A`..`Z` (65..90) map to `a`..`z` (97..122). -/
def lowerCode (c : Nat) : Nat :=
  if 65 ≤ c ∧ c ≤ 90 then c + 32 else c

/-- `p.toLowerCase()` from `put-sample.js` line 10. -/
def toLower (s : JSStr) : JSStr := s.map lowerCode

/-- The metadata object persisted with each sample
(`put-sample.js` line 13): a timestamp in epoch milliseconds and the
list of edge identifiers (called `path` in the code). -/
structure SampleMeta where
  time : Int
  path : List JSStr
  deriving DecidableEq

/-- Result of `store.getWithMetadata(key)` (`put-sample.js` line 18):
a value and a metadata object, each possibly `null`. -/
structure ReadResp where
  value : Option JSStr
  metadata : Option SampleMeta
  deriving DecidableEq

/-- Milliseconds in a day. -/
def msPerDay : Int := 86400000

/-- Modelled from the spec: `ageInDays` is imported from the absent
`src/content/shared.js`; the spec defines a record's age as
`(now - record.time)` measured in whole days, so the difference in
epoch milliseconds is floor-divided by the milliseconds in a day. -/
def ageInDays (now t : Int) : Int := (now - t).fdiv msPerDay

/-- The freshness guard of `put-sample.js` line 19:
`resp.value !== null && resp.metadata !== null && ageInDays(resp.metadata.time) < 1`. -/
def isFresh (now : Int) (resp : ReadResp) : Bool :=
  match resp.value, resp.metadata with
  | some _, some m => decide (ageInDays now m.time < 1)
  | _, _ => false

/-- The merge loop of `put-sample.js` lines 21-25: for each edge `p` of
the existing record, push `p` onto the accumulated list unless
`metadata.path.includes(p)` already holds (an exact string-equality
membership test against the list as mutated so far). -/
def mergePath (path existing : List JSStr) : List JSStr :=
  existing.foldl (fun acc p => if p ∈ acc then acc else acc ++ [p]) path

/-- `(data?.path ?? []).map(p => p.toLowerCase())` from
`put-sample.js` line 10. -/
def requestPath (dataPath : Option (List JSStr)) : List JSStr :=
  (dataPath.getD []).map toLower

/-- The metadata object written back by one read-modify-write cycle of
`put-sample.js` (lines 13 and 17-31): `time` is the new write's
timestamp; `path` is the accumulated edge list, merged with the
existing record's edges exactly when the freshness guard holds. -/
def outgoingMeta (time : Int) (path : List JSStr) (now : Int)
    (resp : ReadResp) : SampleMeta :=
  { time := time
    path :=
      if isFresh now resp then
        mergePath path ((resp.metadata.map SampleMeta.path).getD [])
      else path }

/-- One retry attempt's effect on the shared `metadata.path` list: the
closure of `put-sample.js` lines 17-32 mutates `metadata.path` in
place, so the list entering the next attempt is the list this attempt
built (merged when the re-read record was fresh, unchanged otherwise). -/
def attemptPath (now : Int) (resp : ReadResp) (path : List JSStr) :
    List JSStr :=
  if isFresh now resp then
    mergePath path ((resp.metadata.map SampleMeta.path).getD [])
  else path

/-- The accumulated `metadata.path` after `n` executions of the retried
closure, when attempt `i` reads `reads i` from the store. -/
def pathAfter (now : Int) (reads : Nat → ReadResp) (path0 : List JSStr) :
    Nat → List JSStr
  | 0 => path0
  | n + 1 => attemptPath now (reads n) (pathAfter now reads path0 n)

/-- The two kinds of store write failure distinguished by the spec:
the per-key one-write-per-second `RateLimited` rejection, and any other
store error. -/
inductive StoreErr where
  | rateLimited
  | unavailable
  deriving DecidableEq

/-- An oracle describing the store's behaviour across retry attempts:
what attempt `n`'s read returns, and whether attempt `n`'s write of a
given metadata object is accepted (`none`) or rejected. -/
structure StoreOracle where
  read : Nat → ReadResp
  write : Nat → SampleMeta → Option StoreErr

/-- Terminal outcome of the ingest engine. -/
inductive IngestResult where
  | ok (written : SampleMeta)
  | failed (e : StoreErr)
  | retriesExhausted
  deriving DecidableEq

/-- Modelled from the spec: `retry` is imported from the absent
`src/content/shared.js`; per the spec it re-runs the entire closure
(read, merge, write) after a backoff delay when and only when the write
was rejected `RateLimited`, up to a bounded budget of attempts, and
surfaces any other store error immediately. `n` is the attempt index,
`path` the shared `metadata.path` carried between attempts (the closure
mutates one shared object), and the second component of the result
counts the attempts performed. The backoff delay is real time and has
no effect on the computed state, so it is not modelled. -/
def retryFrom (oracle : StoreOracle) (time now : Int) (n : Nat)
    (path : List JSStr) : Nat → IngestResult × Nat
  | 0 => (.retriesExhausted, 0)
  | fuel + 1 =>
    let resp := oracle.read n
    let path' := attemptPath now resp path
    let meta : SampleMeta := { time := time, path := path' }
    match oracle.write n meta with
    | none => (.ok meta, 1)
    | some .rateLimited =>
      let r := retryFrom oracle time now (n + 1) path' fuel
      (r.1, r.2 + 1)
    | some .unavailable => (.failed .unavailable, 1)

/-- Raw `lat`/`lon` field of the request body, as the location
normalizer sees it: a finite number, `NaN` (which is also what numeric
coercion of a non-numeric value produces), or a missing field. Finite
JavaScript numbers are modelled as rationals. -/
inductive RawVal where
  | num (q : Rat)
  | nan
  | missing
  deriving DecidableEq

/-- The failure kinds of the engine's taxonomy (spec section 7). -/
inductive IngestError where
  | invalidLocation
  deriving DecidableEq

/-- The finite-number check: a raw value is usable iff it is a finite
number, and then it is used unchanged. -/
def finiteNum : RawVal → Option Rat
  | .num q => some q
  | _ => none

/-- Modelled from the spec: `parseLocation` is imported from the absent
`src/content/shared.js`; per the spec it fails with `InvalidLocation`
when either input is not a finite number (non-numeric, NaN, or
missing), and passes any pair of finite numbers through unchanged with
no range clamping. -/
def parseLocation (rawLat rawLon : RawVal) :
    Except IngestError (Rat × Rat) :=
  match finiteNum rawLat, finiteNum rawLon with
  | some lat, some lon => .ok (lat, lon)
  | _, _ => .error .invalidLocation

/-- Decimal digit characters of a natural number, as code units
(`0`..`9` are 48..57), least significant digit first. -/
def natCodes (n : Nat) : List Nat := (Nat.digits 10 n).map (fun d => 48 + d)

/-- Rendering of an integer: a leading `-` (code 45) when negative,
then the digits of its absolute value. -/
def intCodes (i : Int) : List Nat :=
  if i < 0 then 45 :: natCodes i.natAbs else natCodes i.natAbs

/-- Rendering of a rational: numerator, `/` (code 47), denominator. -/
def ratCodes (q : Rat) : List Nat := intCodes q.num ++ 47 :: natCodes q.den

/-- Modelled from the spec: `sampleKey` is imported from the absent
`src/content/shared.js`; per the spec the key is a pure deterministic
string embedding both coordinates in a fixed unambiguous textual
layout, and the sibling endpoint `put-repeater.js` line 14 shows the
house style of `|`-separated template keys, so the key is modelled as
the rendering of `lat`, the separator `|` (code 124), and the rendering
of `lon`. -/
def sampleKey (lat lon : Rat) : List Nat := ratCodes lat ++ 124 :: ratCodes lon

/-- The response computed by `onRequest` of `put-sample.js`: line 8 can
throw `InvalidLocation` out of the handler, but the `retry(...)` call
on line 17 is not awaited, so line 34 returns the `'OK'` acknowledgment
without consulting the outcome of the read-modify-write cycles - the
response is independent of the store oracle. -/
def onRequestResponse (rawLat rawLon : RawVal)
    (_oracle : StoreOracle) : Except IngestError String :=
  match parseLocation rawLat rawLon with
  | .error e => .error e
  | .ok _ => .ok "OK"

/-- Follows the spec's words for the merge rule of section 4.3: the
outgoing edge list is the new edges, extended by appending every edge
of the existing record that is not already present, where presence is
checked case-insensitively. -/
def specMergeRule (newEdges existing : List JSStr) : List JSStr :=
  existing.foldl
    (fun acc p => if ∃ a ∈ acc, toLower a = toLower p then acc else acc ++ [p])
    newEdges

/-- Store oracle whose every write is rejected by the per-key
one-write-per-second constraint. -/
def rlOracle : StoreOracle where
  read := fun _ => ⟨none, none⟩
  write := fun _ _ => some .rateLimited

/-- Store oracle whose every write fails with a non-rate-limit store
error. -/
def unavOracle : StoreOracle where
  read := fun _ => ⟨none, none⟩
  write := fun _ _ => some .unavailable

lemma lowerCode_idem (c : Nat) : lowerCode (lowerCode c) = lowerCode c := by
  unfold lowerCode
  by_cases h : 65 ≤ c ∧ c ≤ 90
  · rw [if_pos h, if_neg (by omega)]
  · rw [if_neg h, if_neg h]

lemma toLower_idem (s : JSStr) : toLower (toLower s) = toLower s := by
  simp only [toLower, List.map_map]
  exact List.map_congr_left fun c _ => lowerCode_idem c

lemma toLower_mem_lower {l : List JSStr} {p : JSStr}
    (h : p ∈ l.map toLower) : toLower p = p := by
  obtain ⟨q, _, rfl⟩ := List.mem_map.mp h
  exact toLower_idem q

lemma mergePath_cons (path : List JSStr) (p : JSStr) (l : List JSStr) :
    mergePath path (p :: l)
      = mergePath (if p ∈ path then path else path ++ [p]) l := rfl

/-- Structure of the merge loop's output: the accumulated list is the
starting list followed by a duplicate-free block of edges none of which
was already in the starting list. -/
lemma mergePath_exists_append (l : List JSStr) :
    ∀ path : List JSStr, ∃ E, mergePath path l = path ++ E ∧
      (∀ e ∈ E, e ∉ path) ∧ E.Nodup := by
  induction l with
  | nil => exact fun path => ⟨[], by simp [mergePath]⟩
  | cons p l ih =>
    intro path
    by_cases hp : p ∈ path
    · obtain ⟨E, hE, hdis, hnd⟩ := ih path
      exact ⟨E, by rw [mergePath_cons, if_pos hp]; exact hE, hdis, hnd⟩
    · obtain ⟨E, hE, hdis, hnd⟩ := ih (path ++ [p])
      refine ⟨p :: E, ?_, ?_, ?_⟩
      · rw [mergePath_cons, if_neg hp, hE, List.append_assoc]
        rfl
      · intro e he
        rcases List.mem_cons.mp he with rfl | he
        · exact hp
        · intro hmem
          exact hdis e he (List.mem_append_left _ hmem)
      · refine List.nodup_cons.mpr ⟨?_, hnd⟩
        intro hpE
        exact hdis p hpE (List.mem_append_right _ (List.mem_singleton.mpr rfl))

lemma mergePath_grows (path l : List JSStr) : path <+: mergePath path l := by
  obtain ⟨E, hE, -, -⟩ := mergePath_exists_append l path
  rw [hE]
  exact List.prefix_append path E

lemma mergePath_of_subset (l : List JSStr) :
    ∀ path : List JSStr, (∀ p ∈ l, p ∈ path) → mergePath path l = path := by
  induction l with
  | nil => intro path _; rfl
  | cons p l ih =>
    intro path h
    rw [mergePath_cons, if_pos (h p (List.mem_cons_self p l))]
    exact ih path fun q hq => h q (List.mem_cons_of_mem p hq)

lemma mergePath_of_disjoint (E : List JSStr) :
    ∀ path : List JSStr, (∀ e ∈ E, e ∉ path) → E.Nodup →
      mergePath path E = path ++ E := by
  induction E with
  | nil => intro path _ _; simp [mergePath]
  | cons e E ih =>
    intro path hdis hnd
    rw [mergePath_cons, if_neg (hdis e (List.mem_cons_self e E))]
    rw [ih (path ++ [e]) ?_ (List.nodup_cons.mp hnd).2, List.append_assoc]
    · rfl
    · intro x hx hmem
      rcases List.mem_append.mp hmem with h | h
      · exact hdis x (List.mem_cons_of_mem e hx) h
      · exact (List.nodup_cons.mp hnd).1 (List.mem_singleton.mp h ▸ hx)

lemma mergePath_idem (new l : List JSStr) :
    mergePath new (mergePath new l) = mergePath new l := by
  obtain ⟨E, hE, hdis, hnd⟩ := mergePath_exists_append l new
  rw [hE]
  show List.foldl _ new (new ++ E) = new ++ E
  rw [List.foldl_append]
  have h1 : List.foldl (fun acc p => if p ∈ acc then acc else acc ++ [p]) new new
      = new := mergePath_of_subset new new fun p hp => hp
  rw [h1]
  exact mergePath_of_disjoint E new hdis hnd

lemma mem_mergePath (l : List JSStr) :
    ∀ path : List JSStr, ∀ a ∈ mergePath path l, a ∈ path ∨ a ∈ l := by
  induction l with
  | nil => intro path a ha; exact Or.inl ha
  | cons p l ih =>
    intro path a ha
    rw [mergePath_cons] at ha
    rcases ih _ a ha with h | h
    · by_cases hp : p ∈ path
      · rw [if_pos hp] at h
        exact Or.inl h
      · rw [if_neg hp] at h
        rcases List.mem_append.mp h with h | h
        · exact Or.inl h
        · exact Or.inr (List.mem_singleton.mp h ▸ List.mem_cons_self p l)
    · exact Or.inr (List.mem_cons_of_mem p h)

lemma mergePath_nodup {path : List JSStr} (l : List JSStr)
    (h : path.Nodup) : (mergePath path l).Nodup := by
  obtain ⟨E, hE, hdis, hnd⟩ := mergePath_exists_append l path
  rw [hE, List.nodup_append]
  exact ⟨h, hnd, fun a ha hE => hdis a hE ha⟩

lemma exists_lower_iff_mem {acc : List JSStr} {p : JSStr}
    (hacc : ∀ a ∈ acc, toLower a = a) (hp : toLower p = p) :
    (∃ a ∈ acc, toLower a = toLower p) ↔ p ∈ acc := by
  constructor
  · rintro ⟨a, ha, hap⟩
    rw [hacc a ha, hp] at hap
    exact hap ▸ ha
  · intro h
    exact ⟨p, h, rfl⟩

lemma specMergeRule_cons (acc : List JSStr) (p : JSStr) (l : List JSStr) :
    specMergeRule acc (p :: l)
      = specMergeRule
          (if ∃ a ∈ acc, toLower a = toLower p then acc else acc ++ [p]) l := rfl

/-- On all-lowercase inputs, the code's exact-equality membership test
agrees with the spec's case-insensitive one, so the merge loop computes
exactly the spec's merge rule. -/
lemma mergePath_eq_specMergeRule (l : List JSStr) :
    ∀ acc : List JSStr, (∀ a ∈ acc, toLower a = a) →
      (∀ p ∈ l, toLower p = p) → mergePath acc l = specMergeRule acc l := by
  induction l with
  | nil => intro acc _ _; rfl
  | cons p l ih =>
    intro acc hacc hl
    have hp : toLower p = p := hl p (List.mem_cons_self p l)
    have hiff := exists_lower_iff_mem hacc hp
    have hl' : ∀ q ∈ l, toLower q = q :=
      fun q hq => hl q (List.mem_cons_of_mem p hq)
    rw [mergePath_cons, specMergeRule_cons]
    by_cases hmem : p ∈ acc
    · rw [if_pos hmem, if_pos (hiff.mpr hmem)]
      exact ih acc hacc hl'
    · rw [if_neg hmem, if_neg (fun hx => hmem (hiff.mp hx))]
      refine ih (acc ++ [p]) ?_ hl'
      intro a ha
      rcases List.mem_append.mp ha with h | h
      · exact hacc a h
      · rw [List.mem_singleton.mp h]
        exact hp

lemma retryFrom_attempts_le (o : StoreOracle) (t now : Int) :
    ∀ fuel n path, (retryFrom o t now n path fuel).2 ≤ fuel := by
  intro fuel
  induction fuel with
  | zero => intro n path; exact Nat.le_refl 0
  | succ fuel ih =>
    intro n path
    cases hw : o.write n ⟨t, attemptPath now (o.read n) path⟩ with
    | none => simp [retryFrom, hw]
    | some e =>
      cases e with
      | rateLimited =>
        simp only [retryFrom, hw]
        have := ih (n + 1) (attemptPath now (o.read n) path)
        omega
      | unavailable => simp [retryFrom, hw]

lemma natCodes_inj {m n : Nat} (h : natCodes m = natCodes n) : m = n := by
  have hf : Function.Injective fun d : Nat => 48 + d :=
    fun a b hab => Nat.add_left_cancel hab
  have hd : Nat.digits 10 m = Nat.digits 10 n :=
    List.map_injective_iff.mpr hf h
  have h2 := congrArg (Nat.ofDigits 10) hd
  rwa [Nat.ofDigits_digits, Nat.ofDigits_digits] at h2

lemma mem_natCodes {c n : Nat} (h : c ∈ natCodes n) : 48 ≤ c ∧ c ≤ 57 := by
  obtain ⟨d, hd, rfl⟩ := List.mem_map.mp h
  have := Nat.digits_lt_base (by norm_num) hd
  omega

lemma mem_intCodes {c : Nat} {i : Int} (h : c ∈ intCodes i) :
    c = 45 ∨ (48 ≤ c ∧ c ≤ 57) := by
  unfold intCodes at h
  split at h
  · rcases List.mem_cons.mp h with rfl | h
    · exact Or.inl rfl
    · exact Or.inr (mem_natCodes h)
  · exact Or.inr (mem_natCodes h)

lemma intCodes_inj {i j : Int} (h : intCodes i = intCodes j) : i = j := by
  unfold intCodes at h
  by_cases hi : i < 0 <;> by_cases hj : j < 0
  · rw [if_pos hi, if_pos hj] at h
    simp only [List.cons.injEq, true_and] at h
    have := natCodes_inj h
    omega
  · rw [if_pos hi, if_neg hj] at h
    have h45 : (45 : Nat) ∈ natCodes j.natAbs :=
      h ▸ List.mem_cons_self 45 (natCodes i.natAbs)
    have := mem_natCodes h45
    omega
  · rw [if_neg hi, if_pos hj] at h
    have h45 : (45 : Nat) ∈ natCodes i.natAbs :=
      h.symm ▸ List.mem_cons_self 45 (natCodes j.natAbs)
    have := mem_natCodes h45
    omega
  · rw [if_neg hi, if_neg hj] at h
    have := natCodes_inj h
    omega

/-- A list holding a single occurrence-free separator splits uniquely:
the separator's position delimits the two halves. -/
lemma append_sep_inj {sep : Nat} :
    ∀ a c b d : List Nat, sep ∉ a → sep ∉ c →
      a ++ sep :: b = c ++ sep :: d → a = c ∧ b = d := by
  intro a
  induction a with
  | nil =>
    intro c b d _ hc h
    cases c with
    | nil => simpa using h
    | cons y c' =>
      simp only [List.nil_append, List.cons_append, List.cons.injEq] at h
      have hy := h.1
      subst hy
      exact absurd (List.mem_cons_self sep c') hc
  | cons x a' ih =>
    intro c b d ha hc h
    cases c with
    | nil =>
      simp only [List.cons_append, List.nil_append, List.cons.injEq] at h
      have hx := h.1
      subst hx
      exact absurd (List.mem_cons_self x a') ha
    | cons y c' =>
      simp only [List.cons_append, List.cons.injEq] at h
      obtain ⟨rfl, h2⟩ := h
      have ha' : sep ∉ a' := fun hm => ha (List.mem_cons_of_mem x hm)
      have hc' : sep ∉ c' := fun hm => hc (List.mem_cons_of_mem x hm)
      obtain ⟨h3, h4⟩ := ih c' b d ha' hc' h2
      exact ⟨by rw [h3], h4⟩

lemma not_mem_intCodes_47 {i : Int} : (47 : Nat) ∉ intCodes i := by
  intro h
  rcases mem_intCodes h with h | h <;> omega

lemma ratCodes_inj {p q : Rat} (h : ratCodes p = ratCodes q) : p = q := by
  unfold ratCodes at h
  obtain ⟨h1, h2⟩ :=
    append_sep_inj (intCodes p.num) (intCodes q.num) (natCodes p.den)
      (natCodes q.den) not_mem_intCodes_47 not_mem_intCodes_47 h
  exact Rat.ext (intCodes_inj h1) (natCodes_inj h2)

lemma mem_ratCodes_le {c : Nat} {q : Rat} (h : c ∈ ratCodes q) : c ≤ 57 := by
  unfold ratCodes at h
  rcases List.mem_append.mp h with h | h
  · rcases mem_intCodes h with h | h <;> omega
  · rcases List.mem_cons.mp h with rfl | h
    · omega
    · exact (mem_natCodes h).2

lemma not_mem_ratCodes_124 {q : Rat} : (124 : Nat) ∉ ratCodes q := by
  intro h
  have := mem_ratCodes_le h
  omega

lemma sampleKey_inj {a b c d : Rat} (h : sampleKey a b = sampleKey c d) :
    a = c ∧ b = d := by
  unfold sampleKey at h
  obtain ⟨h1, h2⟩ :=
    append_sep_inj (ratCodes a) (ratCodes c) (ratCodes b) (ratCodes d)
      not_mem_ratCodes_124 not_mem_ratCodes_124 h
  exact ⟨ratCodes_inj h1, ratCodes_inj h2⟩

/-- C1: for an ingest into a key whose existing record is strictly
less than 1 day old, the outgoing edge list is the spec's merge rule
applied to the lowercased new edges and the existing record's edges:
the new edges in their given order, extended by every existing edge
not already present under the case-insensitive membership check, in
the existing record's order. The hypothesis that the existing record's
edges are lowercase holds of every record this engine writes (C5). -/
theorem C1_merge_fresh_follows_spec_rule
    (raw existing : List JSStr) (t0 time now : Int) (v : JSStr)
    (hlower : ∀ p ∈ existing, toLower p = p)
    (hfresh : ageInDays now t0 < 1) :
    (outgoingMeta time (requestPath (some raw)) now
        ⟨some v, some ⟨t0, existing⟩⟩).path
      = specMergeRule (raw.map toLower) existing := by
  have hguard : isFresh now ⟨some v, some ⟨t0, existing⟩⟩ = true := by
    simp [isFresh, hfresh]
  have hbase : ∀ a ∈ raw.map toLower, toLower a = a :=
    fun a ha => toLower_mem_lower ha
  simp only [outgoingMeta, hguard, if_true, Option.map_some, Option.getD_some]
  exact mergePath_eq_specMergeRule existing (raw.map toLower) hbase hlower

/-- C1 witness: the spec's example - a fresh record with edges
["a","b"] merged with the new edges ["B","c"] yields ["b","c","a"]. -/
theorem C1_witness :
    (∀ p ∈ ([[97], [98]] : List JSStr), toLower p = p)
    ∧ ageInDays 1000 0 < 1
    ∧ (outgoingMeta 5 (requestPath (some [[66], [99]])) 1000
        ⟨some [], some ⟨0, [[97], [98]]⟩⟩).path = [[98], [99], [97]] :=
  ⟨by decide, by decide,
    (C1_merge_fresh_follows_spec_rule [[66], [99]] [[97], [98]] 0 5 1000 []
      (by decide) (by decide)).trans (by decide)⟩

/-- C2: when the read returns no record (null value or metadata) or
the existing record's age in whole days is at least 1, the written
edge list is exactly the new write's edges; and the merge branch is
taken only when a record exists and its age is strictly below 1 day. -/
theorem C2_stale_or_absent_replaces (path : List JSStr) (time now : Int)
    (resp : ReadResp) :
    ((resp.value = none ∨ resp.metadata = none ∨
        (∃ m, resp.metadata = some m ∧ 1 ≤ ageInDays now m.time)) →
      (outgoingMeta time path now resp).path = path)
    ∧ (isFresh now resp = true →
        ∃ v m, resp.value = some v ∧ resp.metadata = some m ∧
          ageInDays now m.time < 1) := by
  obtain ⟨val, md⟩ := resp
  constructor
  · intro h
    cases val with
    | none => simp [outgoingMeta, isFresh]
    | some v =>
      cases md with
      | none => simp [outgoingMeta, isFresh]
      | some m =>
        rcases h with h | h | ⟨m', hm', hage⟩
        · exact absurd h (by simp)
        · exact absurd h (by simp)
        · have hm : m = m' := by injection hm'
          subst hm
          have hguard : isFresh now ⟨some v, some m⟩ = false := by
            simp [isFresh]
            omega
          simp [outgoingMeta, hguard]
  · intro h
    cases val with
    | none => exact absurd h (by simp [isFresh])
    | some v =>
      cases md with
      | none => exact absurd h (by simp [isFresh])
      | some m =>
        exact ⟨v, m, rfl, rfl, by simpa [isFresh] using h⟩

/-- C2 witness: a two-day-old record is replaced outright - the
written edge list is exactly the new write's edges. -/
theorem C2_witness :
    (1 : Int) ≤ ageInDays (2 * 86400000) 0
    ∧ (outgoingMeta 7 [[120]] (2 * 86400000)
        ⟨some [], some ⟨0, [[97]]⟩⟩).path = [[120]] :=
  ⟨by decide,
    (C2_stale_or_absent_replaces [[120]] 7 (2 * 86400000)
        ⟨some [], some ⟨0, [[97]]⟩⟩).1
      (Or.inr (Or.inr ⟨⟨0, [[97]]⟩, rfl, by decide⟩))⟩

/-- C3: a write rejected with the RateLimited condition makes the
engine re-run the whole read-modify-write cycle - the next attempt
performs its own read at the next attempt index - consuming one more
attempt; any other store error is surfaced after exactly one attempt
with no retry; and the attempts consumed never exceed the budget. -/
theorem C3_retry_only_on_rate_limit (o : StoreOracle) (t now : Int)
    (p0 : List JSStr) (fuel : Nat) :
    (o.write 0 ⟨t, attemptPath now (o.read 0) p0⟩ = some .rateLimited →
      retryFrom o t now 0 p0 (fuel + 1)
        = ((retryFrom o t now 1 (attemptPath now (o.read 0) p0) fuel).1,
           (retryFrom o t now 1 (attemptPath now (o.read 0) p0) fuel).2 + 1))
    ∧ (o.write 0 ⟨t, attemptPath now (o.read 0) p0⟩ = some .unavailable →
      retryFrom o t now 0 p0 (fuel + 1) = (.failed .unavailable, 1))
    ∧ (retryFrom o t now 0 p0 fuel).2 ≤ fuel := by
  refine ⟨fun hw => ?_, fun hw => ?_, retryFrom_attempts_le o t now fuel 0 p0⟩
  · simp [retryFrom, hw]
  · simp [retryFrom, hw]

/-- C3 witness: with a store that rate-limits every write the first
cycle is retried as a whole; with a store that fails otherwise the
error surfaces after exactly one attempt; attempts stay within the
budget. -/
theorem C3_witness :
    retryFrom rlOracle 0 0 0 [] (1 + 1)
      = ((retryFrom rlOracle 0 0 1 (attemptPath 0 (rlOracle.read 0) []) 1).1,
         (retryFrom rlOracle 0 0 1 (attemptPath 0 (rlOracle.read 0) []) 1).2 + 1)
    ∧ retryFrom unavOracle 0 0 0 [] (0 + 1) = (.failed .unavailable, 1)
    ∧ (retryFrom rlOracle 0 0 0 [] 5).2 ≤ 5 :=
  ⟨(C3_retry_only_on_rate_limit rlOracle 0 0 [] 1).1 rfl,
   (C3_retry_only_on_rate_limit unavOracle 0 0 [] 0).2.1 rfl,
   (C3_retry_only_on_rate_limit rlOracle 0 0 [] 5).2.2⟩

/-- C4 (code bug): `put-sample.js` line 17 does not await the
`retry(...)` promise, so line 34 returns the bare `'OK'` success
acknowledgment regardless of the store outcome: here the engine's
cycle terminates in a non-rate-limit store failure, yet the response
for the same request is the success acknowledgment - contradicting the
requirement that a failed ingestion yields an error response. Only the
synchronous InvalidLocation throw can reach the caller. -/
theorem C4_ok_response_despite_store_failure :
    (retryFrom unavOracle 0 0 0 [[97]] 3).1 = .failed .unavailable
    ∧ onRequestResponse (.num 1) (.num 2) unavOracle = .ok "OK" :=
  ⟨rfl, rfl⟩

/-- C5 counterexample: a single sighting carrying the duplicate edge
list ["a","a"] is persisted to an absent key as ["a","a"] - the code
never deduplicates the new write's own edges, so the stored record
holds two case-insensitively equal entries. -/
theorem C5_counterexample :
    ¬ List.Pairwise (fun a b => toLower a ≠ toLower b)
        (outgoingMeta 0 (requestPath (some [[97], [97]])) 0
          ⟨none, none⟩).path := by decide

/-- C5 (amended): duplicates inside one sighting are not eliminated;
provided the new write's lowercased edge list is itself free of
case-insensitive duplicates, and the existing record's edges are
lowercase, the persisted record's edges are all lowercase and pairwise
case-insensitively distinct. -/
theorem C5_nodup_invariant_amended (raw : List JSStr) (time now : Int)
    (resp : ReadResp)
    (hnew : List.Pairwise (fun a b => toLower a ≠ toLower b) (raw.map toLower))
    (hex : ∀ m, resp.metadata = some m → ∀ p ∈ m.path, toLower p = p) :
    (∀ p ∈ (outgoingMeta time (requestPath (some raw)) now resp).path,
        toLower p = p)
    ∧ List.Pairwise (fun a b => toLower a ≠ toLower b)
        (outgoingMeta time (requestPath (some raw)) now resp).path := by
  have hbase : ∀ a ∈ raw.map toLower, toLower a = a :=
    fun a ha => toLower_mem_lower ha
  have hbnd : (raw.map toLower).Nodup :=
    hnew.imp fun hab he => hab (congrArg toLower he)
  cases hg : isFresh now resp with
  | false =>
    have hpath : (outgoingMeta time (requestPath (some raw)) now resp).path
        = raw.map toLower := by
      simp [outgoingMeta, hg, requestPath]
    rw [hpath]
    exact ⟨hbase, hnew⟩
  | true =>
    obtain ⟨v, m, rfl⟩ : ∃ v m, resp = ⟨some v, some m⟩ := by
      obtain ⟨val, md⟩ := resp
      cases val with
      | none => exact absurd hg (by simp [isFresh])
      | some v =>
        cases md with
        | none => exact absurd hg (by simp [isFresh])
        | some m => exact ⟨v, m, rfl⟩
    have hexm : ∀ p ∈ m.path, toLower p = p := hex m rfl
    have hpath : (outgoingMeta time (requestPath (some raw)) now
        ⟨some v, some m⟩).path = mergePath (raw.map toLower) m.path := by
      simp [outgoingMeta, hg, requestPath]
    rw [hpath]
    have hmem : ∀ p ∈ mergePath (raw.map toLower) m.path, toLower p = p := by
      intro p hp
      rcases mem_mergePath m.path (raw.map toLower) p hp with h | h
      · exact hbase p h
      · exact hexm p h
    refine ⟨hmem, ?_⟩
    have hnd : (mergePath (raw.map toLower) m.path).Nodup :=
      mergePath_nodup m.path hbnd
    exact hnd.imp_of_mem fun ha hb hne =>
      by rw [hmem _ ha, hmem _ hb]; exact hne

/-- C5 witness: a fresh merge of new edge ["B"] into an existing
record holding ["a"] satisfies the amended invariant. -/
theorem C5_witness :
    List.Pairwise (fun a b => toLower a ≠ toLower b)
      (outgoingMeta 3 (requestPath (some [[66]])) 0
        ⟨some [], some ⟨0, [[97]]⟩⟩).path :=
  (C5_nodup_invariant_amended [[66]] 3 0 ⟨some [], some ⟨0, [[97]]⟩⟩
    (by decide)
    (by intro m hm; injection hm with h; subst h; decide)).2

/-- C6: the modelled location normalizer fails with InvalidLocation
exactly when either raw input is not a finite number, and any pair of
finite numbers - out-of-range geographic values included - passes
through unchanged. -/
theorem C6_parseLocation_invalid_iff_nonfinite (a b : RawVal) :
    (parseLocation a b = .error .invalidLocation ↔
      finiteNum a = none ∨ finiteNum b = none)
    ∧ ∀ x y : Rat, parseLocation (.num x) (.num y) = .ok (x, y) := by
  constructor
  · cases a <;> cases b <;> simp [parseLocation, finiteNum]
  · intro x y
    rfl

/-- C6 witness: the out-of-range numeric pair (1000, -500) passes
through unchanged, and a NaN latitude fails with InvalidLocation. -/
theorem C6_witness :
    parseLocation (.num 1000) (.num (-500)) = .ok (1000, -500)
    ∧ parseLocation .nan (.num 0) = .error .invalidLocation :=
  ⟨(C6_parseLocation_invalid_iff_nonfinite (.num 1000) (.num (-500))).2
      1000 (-500),
   (C6_parseLocation_invalid_iff_nonfinite .nan (.num 0)).1.mpr (Or.inl rfl)⟩

/-- C7: the key is a pure function of the coordinate pair - equal
pairs give equal keys and differing pairs give differing keys; the
`|`-separated layout is unambiguous because the separator occurs in
neither coordinate rendering. -/
theorem C7_sampleKey_deterministic_injective (a b c d : Rat) :
    sampleKey a b = sampleKey c d ↔ a = c ∧ b = d := by
  constructor
  · exact sampleKey_inj
  · rintro ⟨rfl, rfl⟩
    rfl

/-- C7 witness: the keys for (lat 1, lon 23) and (lat 12, lon 3) do
not collide. -/
theorem C7_witness : sampleKey 1 23 ≠ sampleKey 12 3 := fun h => by
  have h2 := (C7_sampleKey_deterministic_injective 1 23 12 3).mp h
  exact absurd h2.1 (by decide)

/-- C8: the persisted record's time field is always the new write's
timestamp, whether the write merged into a fresh record or replaced a
stale or absent one; the existing record's time never survives. -/
theorem C8_time_is_new_write (time : Int) (path : List JSStr) (now : Int)
    (resp : ReadResp) : (outgoingMeta time path now resp).time = time := rfl

/-- C9 counterexample: merging the sighting ["A","a"] into a fresh
record and then re-merging the same sighting into the result leaves
the edge list ["a","a","b"], which is not duplicate-free - the second
merge does not remove the duplicates the first write introduced. -/
theorem C9_counterexample :
    ¬ List.Pairwise (fun a b => toLower a ≠ toLower b)
        (outgoingMeta 2 (requestPath (some [[65], [97]])) 0
          ⟨some [],
           some (outgoingMeta 1 (requestPath (some [[65], [97]])) 0
             ⟨some [], some ⟨0, [[98]]⟩⟩)⟩).path := by decide

/-- C9 (amended): re-merging the same new edges into the record the
first merge produced gives back exactly the same edge list, so the
second merge duplicates nothing; the list is duplicate-free only when
the sighting's own lowercased edges were (see C5). -/
theorem C9_remerge_same_list (raw : List JSStr) (t0 t1 t2 now1 now2 : Int)
    (v1 v2 : JSStr) (existing : List JSStr)
    (h1 : ageInDays now1 t0 < 1) (h2 : ageInDays now2 t1 < 1) :
    (outgoingMeta t2 (requestPath (some raw)) now2
        ⟨some v2, some (outgoingMeta t1 (requestPath (some raw)) now1
          ⟨some v1, some ⟨t0, existing⟩⟩)⟩).path
      = (outgoingMeta t1 (requestPath (some raw)) now1
          ⟨some v1, some ⟨t0, existing⟩⟩).path := by
  have hg1 : isFresh now1 ⟨some v1, some ⟨t0, existing⟩⟩ = true := by
    simp [isFresh, h1]
  have houter : outgoingMeta t1 (requestPath (some raw)) now1
      ⟨some v1, some ⟨t0, existing⟩⟩
      = ⟨t1, mergePath (requestPath (some raw)) existing⟩ := by
    simp [outgoingMeta, hg1]
  rw [houter]
  have hg2 : isFresh now2 ⟨some v2,
      some (⟨t1, mergePath (requestPath (some raw)) existing⟩ : SampleMeta)⟩
      = true := by
    simp [isFresh, h2]
  simp [outgoingMeta, hg2, mergePath_idem]

/-- C9 witness: re-ingesting the sighting ["B"] into the record the
first ingest produced leaves the stored edge list unchanged. -/
theorem C9_witness :
    ageInDays 0 0 < 1
    ∧ (outgoingMeta 0 (requestPath (some [[66]])) 0
        ⟨some [], some (outgoingMeta 0 (requestPath (some [[66]])) 0
          ⟨some [], some ⟨0, [[97]]⟩⟩)⟩).path
      = (outgoingMeta 0 (requestPath (some [[66]])) 0
          ⟨some [], some ⟨0, [[97]]⟩⟩).path :=
  ⟨by decide,
    C9_remerge_same_list [[66]] 0 0 0 0 0 [] [] [[97]] (by decide) (by decide)⟩

/-- C10: the retried closure mutates the one shared metadata object:
attempt n+1's edge list is, definitionally, the merge of attempt n+1's
own store read into the list attempt n accumulated (first conjunct),
and the accumulated list only grows - the list written at any attempt
is a prefix of, hence contained in, the list written at every later
attempt (second conjunct). -/
theorem C10_path_accumulates (now : Int) (reads : Nat → ReadResp)
    (p0 : List JSStr) (n m : Nat) :
    pathAfter now reads p0 (n + 1)
      = attemptPath now (reads n) (pathAfter now reads p0 n)
    ∧ pathAfter now reads p0 n <+: pathAfter now reads p0 (n + m) := by
  refine ⟨rfl, ?_⟩
  induction m with
  | zero => exact List.prefix_refl _
  | succ m ih =>
    refine List.IsPrefix.trans ih ?_
    show pathAfter now reads p0 (n + m) <+:
      attemptPath now (reads (n + m)) (pathAfter now reads p0 (n + m))
    unfold attemptPath
    split
    · exact mergePath_grows _ _
    · exact List.prefix_refl _

end MeshMap
